import Mathlib

/-!
Verification of the Smart EV Charging Station simulation.

The repository is a single Python script containing a profile generator
`generate_simulation_data` (synthetic grid-load / solar series, NumPy RNG)
and a charging engine `simulate_charging` (per-minute power allocation,
SoC integration, padding and completion detection).  This file is a
shallow embedding of those two functions over exact rationals, together
with proofs of the testable properties stated in the specification.
-/

set_option autoImplicit false

/-- One row of the generated DataFrame: the timestamp (as minutes since the
fixed origin "2025-05-12 00:00"), the `hour` attribute of that timestamp,
the grid load and the solar production. -/
structure Sample where
  time : ℕ
  hour : ℕ
  grid_load : ℚ
  solar_prod : ℚ
  deriving DecidableEq

/-- Default sample, used as the `getD` default when indexing series. -/
def sample0 : Sample := ⟨0, 0, 0, 0⟩

/-- Embedding of `generate_simulation_data`.  The fixed closed-form curves
`np.sin(np.linspace(0, 2*np.pi, 1440))` (per index `i`) and the solar bell
`np.exp(-((np.linspace(0, 24, 1440) - 12) ** 2) / 8)` are transcendental
constants of the program; they enter the embedding as the parameters
`sin_lin` and `bell` (functions of the step index `i`).  The parameter
`noise` is the stream of standard-normal draws produced by the
process-global NumPy RNG after the module-level `np.random.seed(42)`, and
`off` is the current position in that stream: `np.random.normal(0, s, n)`
consumes `n` draws, its `k`-th element being `s * noise (off + k)`.  The
function returns the generated series together with the advanced stream
position (the grid call consumes draws `off..off+1439`, the solar call
`off+1440..off+2879`). -/
def generate_simulation_data (sin_lin bell noise : ℕ → ℚ) (off : ℕ) :
    List Sample × ℕ :=
  let time_steps : ℕ := 1440
  (((List.range time_steps).map fun i =>
    { time := i
      hour := i / 60 % 24
      grid_load := 5 + 10 * sin_lin i + 1 * noise (off + i) +
        (if 1080 ≤ i ∧ i < 1320 then 10 else 0)
      solar_prod := max 0 (15 * bell i + 1 / 2 * noise (off + time_steps + i)) }),
   off + 2 * time_steps)

/-- Embedding of `len(data) if step_limit is None else
max(1, min(step_limit, len(data)))` (line 36 of the source). -/
def time_steps_of (dataLen : ℕ) (step_limit : Option ℤ) : ℕ :=
  match step_limit with
  | none => dataLen
  | some s => (max 1 (min s (dataLen : ℤ))).toNat

/-- Power selection rule of `simulate_charging` (lines 47-52): solar
priority, evening load shedding, otherwise max power; every branch is also
capped by the demand cap `energy_needed * 60 / (time_steps - i)`.  Python's
three-argument `min` folds from the left. -/
def charge_power (max_power : ℚ) (T i : ℕ) (s : Sample)
    (energy_needed : ℚ) : ℚ :=
  let dcap := energy_needed * 60 / ((T : ℚ) - (i : ℚ))
  if 5 < s.solar_prod then min (min s.solar_prod max_power) dcap
  else if 18 ≤ s.hour ∧ s.hour ≤ 22 then min (min 5 max_power) dcap
  else min max_power dcap

/-- SoC update of `simulate_charging` (lines 55-57):
`soc += power * (1/60) / battery_capacity`, then cap at 1.0. -/
def charge_soc (battery_capacity soc power : ℚ) : ℚ :=
  min (soc + power * (1 / 60) / battery_capacity) 1

/-- One iteration of the engine loop: the allocated power, the updated SoC
and the recomputed `energy_needed = max(0, battery_capacity * (1 - soc))`. -/
def charge_step (battery_capacity max_power : ℚ) (T i : ℕ) (s : Sample)
    (soc energy_needed : ℚ) : ℚ × ℚ × ℚ :=
  (charge_power max_power T i s energy_needed,
   charge_soc battery_capacity soc (charge_power max_power T i s energy_needed),
   max 0 (battery_capacity *
     (1 - charge_soc battery_capacity soc (charge_power max_power T i s energy_needed))))

/-- The engine loop `for i in range(time_steps)` over the first
`time_steps` rows of the series, producing the ordered list of
`(charging_power, soc_percent)` step results. -/
def charge_loop (battery_capacity max_power : ℚ) (T : ℕ) :
    ℕ → ℚ → ℚ → List Sample → List (ℚ × ℚ)
  | _, _, _, [] => []
  | i, soc, energy_needed, s :: rest =>
    let r := charge_step battery_capacity max_power T i s soc energy_needed
    (r.1, r.2.1 * 100) ::
      charge_loop battery_capacity max_power T (i + 1) r.2.1 r.2.2 rest

/-- Embedding of `next((i for i, soc in enumerate(soc_values) if p soc), ...)`:
the first index of the list satisfying the predicate, if any. -/
def find_first (p : ℚ → Bool) : List ℚ → Option ℕ
  | [] => none
  | x :: xs => if p x then some 0 else (find_first p xs).map (· + 1)

/-- The completion test `soc >= 99.9` of line 72. -/
def full_threshold : ℚ → Bool := fun soc => decide ((999 : ℚ) / 10 ≤ soc)

/-- Embedding of `simulate_charging` (lines 31-75).  Returns the padded
`charging_power` column, the padded `soc_percent` column and the completion
index.  The initial state is `soc = initial_soc`,
`energy_needed = battery_capacity * (1 - initial_soc)`; if `step_limit`
cuts the series short, charging power is padded with `0` and SoC percent
with its last simulated value (or `initial_soc * 100` if nothing was
simulated); the completion index is the first index of the padded
`soc_percent` column at (or above) the threshold, else `len(data) - 1`. -/
def simulate_charging (data : List Sample)
    (battery_capacity initial_soc max_power : ℚ) (step_limit : Option ℤ) :
    List ℚ × List ℚ × ℕ :=
  let T := time_steps_of data.length step_limit
  let res := charge_loop battery_capacity max_power T 0 initial_soc
    (battery_capacity * (1 - initial_soc)) (data.take T)
  let charging_power := res.map Prod.fst
  let soc_values := res.map Prod.snd
  let charging_power :=
    if T < data.length then
      charging_power ++ List.replicate (data.length - T) 0
    else charging_power
  let soc_values :=
    if T < data.length then
      soc_values ++ List.replicate (data.length - T)
        (soc_values.getLast?.getD (initial_soc * 100))
    else soc_values
  let completion_idx :=
    (find_first full_threshold soc_values).getD (data.length - 1)
  (charging_power, soc_values, completion_idx)

/-- The padded `charging_power` column produced by the engine. -/
def sim_powers (data : List Sample) (battery_capacity initial_soc max_power : ℚ)
    (step_limit : Option ℤ) : List ℚ :=
  (simulate_charging data battery_capacity initial_soc max_power step_limit).1

/-- The padded `soc_percent` column produced by the engine. -/
def sim_socs (data : List Sample) (battery_capacity initial_soc max_power : ℚ)
    (step_limit : Option ℤ) : List ℚ :=
  (simulate_charging data battery_capacity initial_soc max_power step_limit).2.1

/-- The completion index produced by the engine. -/
def sim_cidx (data : List Sample) (battery_capacity initial_soc max_power : ℚ)
    (step_limit : Option ℤ) : ℕ :=
  (simulate_charging data battery_capacity initial_soc max_power step_limit).2.2

/-- Embedding of `completion_time = data["Time"].iloc[completion_idx]`
(line 73): the timestamp of the series at the completion index. -/
def simulate_completion_time (data : List Sample)
    (battery_capacity initial_soc max_power : ℚ) (step_limit : Option ℤ) :
    Option ℕ :=
  (data.get? (sim_cidx data battery_capacity initial_soc max_power step_limit)).map
    Sample.time

/-- The simulated (pre-padding) `charging_power` entries. -/
def loop_powers (data : List Sample) (c s0 m : ℚ) (sl : Option ℤ) : List ℚ :=
  (charge_loop c m (time_steps_of data.length sl) 0 s0 (c * (1 - s0))
    (data.take (time_steps_of data.length sl))).map Prod.fst

/-- The simulated (pre-padding) `soc_percent` entries. -/
def loop_socs (data : List Sample) (c s0 m : ℚ) (sl : Option ℤ) : List ℚ :=
  (charge_loop c m (time_steps_of data.length sl) 0 s0 (c * (1 - s0))
    (data.take (time_steps_of data.length sl))).map Prod.snd

/-! ### List helpers -/

theorem getD_replicate_lt {α : Type} (v d : α) : ∀ {k j : ℕ}, j < k →
    (List.replicate k v).getD j d = v
  | k + 1, 0, _ => by simp [List.replicate_succ]
  | k + 1, j + 1, h => by
    rw [List.replicate_succ, List.getD_cons_succ]
    exact getD_replicate_lt v d (Nat.lt_of_succ_lt_succ h)

theorem getD_take_eq {α : Type} (d : α) : ∀ (l : List α) (n i : ℕ), i < n →
    (l.take n).getD i d = l.getD i d
  | [], _, _, _ => by simp
  | _ :: _, n + 1, 0, _ => by simp
  | x :: xs, n + 1, i + 1, h => by
    rw [List.take_succ_cons, List.getD_cons_succ, List.getD_cons_succ]
    exact getD_take_eq d xs n i (Nat.lt_of_succ_lt_succ h)

theorem chain'_le_getD : ∀ {l : List ℚ}, List.Chain' (· ≤ ·) l →
    ∀ i, i + 1 < l.length → l.getD i 0 ≤ l.getD (i + 1) 0
  | [], _, i, h => by simp at h
  | [_], _, i, h => by simp at h
  | a :: b :: t, h, 0, _ => by
    rw [List.getD_cons_zero, List.getD_cons_succ, List.getD_cons_zero]
    exact (List.chain'_cons.mp h).1
  | a :: b :: t, h, i + 1, hlen => by
    rw [List.getD_cons_succ, List.getD_cons_succ]
    exact chain'_le_getD (List.chain'_cons.mp h).2 i (by simpa using hlen)

theorem chain'_le_replicate (k : ℕ) (v : ℚ) :
    List.Chain' (· ≤ ·) (List.replicate k v) := by
  induction k with
  | zero => simp
  | succ k ih =>
    rw [List.replicate_succ]
    refine List.chain'_cons'.mpr ⟨?_, ih⟩
    intro y hy
    cases k with
    | zero => simp at hy
    | succ k => rw [List.replicate_succ] at hy; simp at hy; exact le_of_eq hy

theorem getLast_getD_eq_getD : ∀ (l : List ℚ) (d : ℚ), l ≠ [] →
    l.getLast?.getD d = l.getD (l.length - 1) 0
  | [], _, h => absurd rfl h
  | [x], _, _ => rfl
  | x :: y :: t, d, _ => by
    rw [List.getLast?_cons_cons]
    have : (x :: y :: t).length - 1 = (y :: t).length - 1 + 1 := by
      simp [Nat.succ_sub_one]
    rw [this, List.getD_cons_succ]
    exact getLast_getD_eq_getD (y :: t) d (List.cons_ne_nil _ _)

theorem forall2_le_append {l1 l2 u1 u2 : List ℚ}
    (h : List.Forall₂ (· ≤ ·) l1 l2) (h2 : List.Forall₂ (· ≤ ·) u1 u2) :
    List.Forall₂ (· ≤ ·) (l1 ++ u1) (l2 ++ u2) := by
  induction h with
  | nil => exact h2
  | cons hab _ ih => exact List.Forall₂.cons hab ih

theorem forall2_le_replicate (k : ℕ) {a b : ℚ} (h : a ≤ b) :
    List.Forall₂ (· ≤ ·) (List.replicate k a) (List.replicate k b) := by
  induction k with
  | zero => exact List.Forall₂.nil
  | succ k ih => exact List.Forall₂.cons h ih

theorem forall2_le_getLast : ∀ {l1 l2 : List ℚ},
    List.Forall₂ (· ≤ ·) l1 l2 → ∀ {d1 d2 : ℚ}, d1 ≤ d2 →
    l1.getLast?.getD d1 ≤ l2.getLast?.getD d2 := by
  intro l1 l2 h
  induction h with
  | nil => intro d1 d2 hd; exact hd
  | @cons a b t1 t2 hab htail ih =>
    intro d1 d2 hd
    cases htail with
    | nil => simpa using hab
    | @cons x y s1 s2 hxy hs =>
      rw [List.getLast?_cons_cons, List.getLast?_cons_cons]
      exact ih hd

/-! ### First-index characterisation of `find_first` -/

theorem find_first_lt_length {p : ℚ → Bool} : ∀ {l : List ℚ} {i : ℕ},
    find_first p l = some i → i < l.length
  | [], i, h => by simp [find_first] at h
  | x :: xs, i, h => by
    rw [find_first] at h
    by_cases hx : p x
    · rw [if_pos hx] at h
      simp only [Option.some.injEq] at h
      rw [List.length_cons]
      omega
    · rw [if_neg hx] at h
      rcases Option.map_eq_some'.mp h with ⟨i', hi', rfl⟩
      have := find_first_lt_length hi'
      simp only [List.length_cons]
      omega

theorem find_first_none {p : ℚ → Bool} (d : ℚ) : ∀ {l : List ℚ},
    find_first p l = none → ∀ j, j < l.length → p (l.getD j d) = false
  | [], _, j, hj => by simp at hj
  | x :: xs, h, j, hj => by
    rw [find_first] at h
    by_cases hx : p x
    · rw [if_pos hx] at h; exact absurd h (by simp)
    · rw [if_neg hx] at h
      have hxs : find_first p xs = none := by
        cases hfx : find_first p xs with
        | none => rfl
        | some k => rw [hfx] at h; simp at h
      cases j with
      | zero => rw [List.getD_cons_zero]; exact Bool.eq_false_iff.mpr hx
      | succ j =>
        rw [List.getD_cons_succ]
        exact find_first_none d hxs j (by simpa using hj)

theorem find_first_some {p : ℚ → Bool} (d : ℚ) : ∀ {l : List ℚ} {i : ℕ},
    find_first p l = some i →
    p (l.getD i d) = true ∧ ∀ j, j < i → p (l.getD j d) = false
  | [], i, h => by simp [find_first] at h
  | x :: xs, i, h => by
    rw [find_first] at h
    by_cases hx : p x
    · rw [if_pos hx] at h
      simp only [Option.some.injEq] at h
      subst h
      exact ⟨by rw [List.getD_cons_zero]; exact hx, fun j hj => by omega⟩
    · rw [if_neg hx] at h
      rcases Option.map_eq_some'.mp h with ⟨i', hi', rfl⟩
      rcases find_first_some d hi' with ⟨h1, h2⟩
      refine ⟨by rw [List.getD_cons_succ]; exact h1, fun j hj => ?_⟩
      cases j with
      | zero => rw [List.getD_cons_zero]; exact Bool.eq_false_iff.mpr hx
      | succ j => rw [List.getD_cons_succ]; exact h2 j (by omega)

theorem find_first_mono : ∀ {l1 l2 : List ℚ}, List.Forall₂ (· ≤ ·) l1 l2 →
    ∀ {i : ℕ}, find_first full_threshold l1 = some i →
    ∃ j, j ≤ i ∧ find_first full_threshold l2 = some j := by
  intro l1 l2 h
  induction h with
  | nil => intro i hi; simp [find_first] at hi
  | @cons a b t1 t2 hab htail ih =>
    intro i hi
    rw [find_first] at hi
    by_cases hpa : full_threshold a
    · have hpb : full_threshold b = true := by
        have ha : (999 : ℚ) / 10 ≤ a := of_decide_eq_true hpa
        exact decide_eq_true (le_trans ha hab)
      exact ⟨0, Nat.zero_le _, by rw [find_first, if_pos hpb]⟩
    · rw [if_neg hpa] at hi
      rcases Option.map_eq_some'.mp hi with ⟨i', hi', rfl⟩
      rcases ih hi' with ⟨j', hj', hfind⟩
      by_cases hpb : full_threshold b
      · exact ⟨0, Nat.zero_le _, by rw [find_first, if_pos hpb]⟩
      · exact ⟨j' + 1, by omega,
          by rw [find_first, if_neg hpb, hfind]; rfl⟩

/-! ### Per-step facts about the power rule and the SoC update -/

theorem charge_power_le_max (m : ℚ) (T i : ℕ) (s : Sample) (en : ℚ) :
    charge_power m T i s en ≤ m := by
  simp only [charge_power]
  split_ifs with h1 h2
  · exact le_trans (min_le_left _ _) (min_le_right _ _)
  · exact le_trans (min_le_left _ _) (min_le_right _ _)
  · exact min_le_left _ _

theorem charge_power_nonneg {m en : ℚ} (T i : ℕ) (s : Sample)
    (hm : 0 ≤ m) (hen : 0 ≤ en) (hT : i < T) :
    0 ≤ charge_power m T i s en := by
  have hd : (0 : ℚ) ≤ (T : ℚ) - (i : ℚ) := by
    have h : (i : ℚ) ≤ (T : ℚ) := by exact_mod_cast le_of_lt hT
    linarith
  have hdcap : 0 ≤ en * 60 / ((T : ℚ) - (i : ℚ)) :=
    div_nonneg (mul_nonneg hen (by norm_num)) hd
  simp only [charge_power]
  split_ifs with h1 h2
  · exact le_min (le_min (by linarith) hm) hdcap
  · exact le_min (le_min (by norm_num) hm) hdcap
  · exact le_min hm hdcap

theorem charge_power_shed (m : ℚ) (T i : ℕ) (s : Sample) (en : ℚ)
    (h5 : s.solar_prod ≤ 5) (h18 : 18 ≤ s.hour) (h22 : s.hour ≤ 22) :
    charge_power m T i s en ≤ 5 := by
  simp only [charge_power]
  rw [if_neg (not_lt.mpr h5), if_pos ⟨h18, h22⟩]
  exact le_trans (min_le_left _ _) (min_le_left _ _)

theorem charge_power_full {m : ℚ} (T i : ℕ) (s : Sample) (hm : 0 ≤ m) :
    charge_power m T i s 0 = 0 := by
  simp only [charge_power, zero_mul, zero_div]
  split_ifs with h1 h2
  · exact min_eq_right (le_min (by linarith) hm)
  · exact min_eq_right (le_min (by norm_num) hm)
  · exact min_eq_right hm

theorem charge_soc_le_one (c s p : ℚ) : charge_soc c s p ≤ 1 :=
  min_le_right _ _

theorem charge_soc_ge {c p : ℚ} (s : ℚ) (hc : 0 < c) (hp : 0 ≤ p)
    (hs : s ≤ 1) : s ≤ charge_soc c s p := by
  refine le_min ?_ hs
  have h : 0 ≤ p * (1 / 60) / c :=
    div_nonneg (mul_nonneg hp (by norm_num)) hc.le
  linarith

theorem charge_soc_full {c : ℚ} (hc : 0 < c) : charge_soc c 1 0 = 1 := by
  simp [charge_soc]

/-- Joint monotonicity of one SoC step in the previous SoC and in the power
cap: the branch cap `k` and the demand cap both move the right way. -/
theorem core_mono {c d k1 k2 s1 s2 : ℚ} (hc : 0 < c) (hd : 1 ≤ d)
    (hk : k1 ≤ k2) (hs : s1 ≤ s2) :
    s1 + min k1 (c * (1 - s1) * 60 / d) * (1 / 60) / c ≤
    s2 + min k2 (c * (1 - s2) * 60 / d) * (1 / 60) / c := by
  have hc' : c ≠ 0 := ne_of_gt hc
  have hd0 : (0 : ℚ) < d := lt_of_lt_of_le one_pos hd
  have hd' : d ≠ 0 := ne_of_gt hd0
  have e1 : ∀ s : ℚ, c * (1 - s) * 60 / d * (1 / 60) / c = (1 - s) / d := by
    intro s; field_simp; ring
  rcases le_total k2 (c * (1 - s2) * 60 / d) with h | h
  · rw [min_eq_left h]
    have h1 : min k1 (c * (1 - s1) * 60 / d) * (1 / 60) / c ≤
        k2 * (1 / 60) / c :=
      (div_le_div_right hc).mpr (mul_le_mul_of_nonneg_right
        (le_trans (min_le_left _ _) hk) (by norm_num))
    linarith
  · rw [min_eq_right h]
    calc s1 + min k1 (c * (1 - s1) * 60 / d) * (1 / 60) / c
        ≤ s1 + c * (1 - s1) * 60 / d * (1 / 60) / c := by
          have h1 : min k1 (c * (1 - s1) * 60 / d) * (1 / 60) / c ≤
              c * (1 - s1) * 60 / d * (1 / 60) / c :=
            (div_le_div_right hc).mpr (mul_le_mul_of_nonneg_right
              (min_le_right _ _) (by norm_num))
          linarith
      _ = s1 + (1 - s1) / d := by rw [e1]
      _ ≤ s2 + (1 - s2) / d := by
          have h3 : (s2 - s1) / d ≤ s2 - s1 := div_le_self (by linarith) hd
          have h4 : (1 - s1) / d - (1 - s2) / d = (s2 - s1) / d := by ring
          linarith
      _ = s2 + c * (1 - s2) * 60 / d * (1 / 60) / c := by rw [e1]

/-- One engine step is monotone in `(soc, max_power)` when the
`energy_needed` state is the one determined by the SoC. -/
theorem charge_step_soc_mono {c m1 m2 : ℚ} (T i : ℕ) (smp : Sample)
    (hc : 0 < c) (hm : m1 ≤ m2) (hT : i < T) {s1 s2 : ℚ} (hs : s1 ≤ s2) :
    charge_soc c s1 (charge_power m1 T i smp (c * (1 - s1))) ≤
    charge_soc c s2 (charge_power m2 T i smp (c * (1 - s2))) := by
  have hd : (1 : ℚ) ≤ (T : ℚ) - (i : ℚ) := by
    have h : (i : ℚ) + 1 ≤ (T : ℚ) := by exact_mod_cast Nat.succ_le_of_lt hT
    linarith
  simp only [charge_power, charge_soc]
  split_ifs with h1 h2
  · exact min_le_min (core_mono hc hd (min_le_min le_rfl hm) hs) le_rfl
  · exact min_le_min (core_mono hc hd (min_le_min le_rfl hm) hs) le_rfl
  · exact min_le_min (core_mono hc hd hm hs) le_rfl

/-! ### Loop-level invariants -/

theorem charge_loop_length (c m : ℚ) (T : ℕ) :
    ∀ (xs : List Sample) (i : ℕ) (s en : ℚ),
      (charge_loop c m T i s en xs).length = xs.length
  | [], _, _, _ => rfl
  | x :: rest, i, s, en => by
    simp [charge_loop, charge_loop_length c m T rest]

/-- Bounds carried along the loop when the state satisfies the SoC
invariant `energy_needed = capacity * (1 - soc)`, `soc ∈ [0, 1]`. -/
theorem charge_loop_mem {c m : ℚ} (hc : 0 < c) (hm : 0 ≤ m) (T : ℕ) :
    ∀ (xs : List Sample) (i : ℕ) (s : ℚ), 0 ≤ s → s ≤ 1 → i + xs.length ≤ T →
    ∀ r ∈ charge_loop c m T i s (c * (1 - s)) xs,
      0 ≤ r.1 ∧ r.1 ≤ m ∧ s * 100 ≤ r.2 ∧ r.2 ≤ 100 := by
  intro xs
  induction xs with
  | nil => intro i s _ _ _ r hr; simp [charge_loop] at hr
  | cons x rest ih =>
    intro i s h0 h1 hiT r hr
    have hiT' : i < T := by simp [List.length_cons] at hiT; omega
    have hiT2 : i + 1 + rest.length ≤ T := by
      simp [List.length_cons] at hiT; omega
    have hen : 0 ≤ c * (1 - s) := mul_nonneg hc.le (by linarith)
    have hP : 0 ≤ charge_power m T i x (c * (1 - s)) :=
      charge_power_nonneg T i x hm hen hiT'
    simp only [charge_loop, charge_step] at hr
    set u := charge_soc c s (charge_power m T i x (c * (1 - s))) with hud
    have hu1 : u ≤ 1 := charge_soc_le_one _ _ _
    have hsu : s ≤ u := charge_soc_ge s hc hP h1
    have hu0 : 0 ≤ u := le_trans h0 hsu
    have hmax : max 0 (c * (1 - u)) = c * (1 - u) :=
      max_eq_right (mul_nonneg hc.le (by linarith))
    rw [hmax] at hr
    rcases List.mem_cons.mp hr with rfl | hr'
    · refine ⟨hP, charge_power_le_max m T i x _, ?_, ?_⟩
      · exact mul_le_mul_of_nonneg_right hsu (by norm_num)
      · simp only []; linarith
    · rcases ih (i + 1) u hu0 hu1 hiT2 r hr' with ⟨ha, hb, hcc, hdd⟩
      exact ⟨ha, hb,
        le_trans (mul_le_mul_of_nonneg_right hsu (by norm_num)) hcc, hdd⟩

/-- The recorded SoC-percent sequence, with `initial_soc * 100` in front,
is a non-decreasing chain. -/
theorem charge_loop_chain {c m : ℚ} (hc : 0 < c) (hm : 0 ≤ m) (T : ℕ) :
    ∀ (xs : List Sample) (i : ℕ) (s : ℚ), s ≤ 1 → i + xs.length ≤ T →
    List.Chain' (· ≤ ·)
      (s * 100 :: (charge_loop c m T i s (c * (1 - s)) xs).map Prod.snd) := by
  intro xs
  induction xs with
  | nil => intro i s _ _; simp [charge_loop]
  | cons x rest ih =>
    intro i s h1 hiT
    have hiT' : i < T := by simp [List.length_cons] at hiT; omega
    have hiT2 : i + 1 + rest.length ≤ T := by
      simp [List.length_cons] at hiT; omega
    have hen : 0 ≤ c * (1 - s) := mul_nonneg hc.le (by linarith)
    have hP : 0 ≤ charge_power m T i x (c * (1 - s)) :=
      charge_power_nonneg T i x hm hen hiT'
    simp only [charge_loop, charge_step, List.map_cons]
    set u := charge_soc c s (charge_power m T i x (c * (1 - s))) with hud
    have hu1 : u ≤ 1 := charge_soc_le_one _ _ _
    have hsu : s ≤ u := charge_soc_ge s hc hP h1
    have hmax : max 0 (c * (1 - u)) = c * (1 - u) :=
      max_eq_right (mul_nonneg hc.le (by linarith))
    rw [hmax]
    exact List.chain'_cons.mpr
      ⟨mul_le_mul_of_nonneg_right hsu (by norm_num), ih (i + 1) u hu1 hiT2⟩

/-- In the evening window with no significant solar, the recorded power at
that step is at most 5, whatever the state and parameters are. -/
theorem charge_loop_shed (c m : ℚ) (T : ℕ) :
    ∀ (xs : List Sample) (i : ℕ) (s en : ℚ) (j : ℕ), j < xs.length →
      (xs.getD j sample0).solar_prod ≤ 5 →
      18 ≤ (xs.getD j sample0).hour → (xs.getD j sample0).hour ≤ 22 →
      ((charge_loop c m T i s en xs).getD j (0, 0)).1 ≤ 5 := by
  intro xs
  induction xs with
  | nil => intro i s en j hj _ _ _; simp at hj
  | cons x rest ih =>
    intro i s en j hj h5 h18 h22
    simp only [charge_loop, charge_step]
    cases j with
    | zero =>
      rw [List.getD_cons_zero]
      rw [List.getD_cons_zero] at h5 h18 h22
      exact charge_power_shed m T i x en h5 h18 h22
    | succ j =>
      rw [List.getD_cons_succ]
      rw [List.getD_cons_succ] at h5 h18 h22
      exact ih (i + 1) _ _ j (by simpa using hj) h5 h18 h22

/-- Once the battery is full (`soc = 1`, `energy_needed = 0`), every later
step records zero power and 100 percent SoC. -/
theorem charge_loop_full {c m : ℚ} (hc : 0 < c) (hm : 0 ≤ m) (T : ℕ) :
    ∀ (xs : List Sample) (i : ℕ), ∀ r ∈ charge_loop c m T i 1 0 xs,
      r.1 = 0 ∧ r.2 = 100 := by
  intro xs
  induction xs with
  | nil => intro i r hr; simp [charge_loop] at hr
  | cons x rest ih =>
    intro i r hr
    simp only [charge_loop, charge_step] at hr
    rw [charge_power_full T i x hm, charge_soc_full hc] at hr
    have hz : max 0 (c * (1 - 1)) = 0 := by norm_num
    rw [hz] at hr
    rcases List.mem_cons.mp hr with rfl | hr'
    · constructor
      · rfl
      · norm_num
    · exact ih (i + 1) r hr'

/-- If the recorded SoC percent reaches 100 at index `i`, every later
simulated step records zero charging power. -/
theorem charge_loop_full_after {c m : ℚ} (hc : 0 < c) (hm : 0 ≤ m) (T : ℕ) :
    ∀ (xs : List Sample) (i0 : ℕ) (s : ℚ), 0 ≤ s → s ≤ 1 →
      i0 + xs.length ≤ T → ∀ i j : ℕ, i < j → j < xs.length →
      ((charge_loop c m T i0 s (c * (1 - s)) xs).getD i (0, 0)).2 = 100 →
      ((charge_loop c m T i0 s (c * (1 - s)) xs).getD j (0, 0)).1 = 0 := by
  intro xs
  induction xs with
  | nil => intro i0 s _ _ _ i j _ hj _; simp at hj
  | cons x rest ih =>
    intro i0 s h0 h1 hiT i j hij hj hsoc
    have hiT' : i0 < T := by simp [List.length_cons] at hiT; omega
    have hiT2 : i0 + 1 + rest.length ≤ T := by
      simp [List.length_cons] at hiT; omega
    have hen : 0 ≤ c * (1 - s) := mul_nonneg hc.le (by linarith)
    have hP : 0 ≤ charge_power m T i0 x (c * (1 - s)) :=
      charge_power_nonneg T i0 x hm hen hiT'
    simp only [charge_loop, charge_step] at hsoc ⊢
    set u := charge_soc c s (charge_power m T i0 x (c * (1 - s))) with hud
    have hu1 : u ≤ 1 := charge_soc_le_one _ _ _
    have hsu : s ≤ u := charge_soc_ge s hc hP h1
    have hu0 : 0 ≤ u := le_trans h0 hsu
    have hmax : max 0 (c * (1 - u)) = c * (1 - u) :=
      max_eq_right (mul_nonneg hc.le (by linarith))
    rw [hmax] at hsoc ⊢
    obtain ⟨j', rfl⟩ : ∃ j', j = j' + 1 := ⟨j - 1, by omega⟩
    rw [List.getD_cons_succ]
    have hjlen : j' < rest.length := by simpa using hj
    cases i with
    | zero =>
      rw [List.getD_cons_zero] at hsoc
      have hu100 : u * 100 = 100 := hsoc
      have huu : u = 1 := by linarith
      rw [huu]
      have h10 : c * (1 - (1 : ℚ)) = 0 := by ring
      rw [h10]
      have hlen : j' < (charge_loop c m T (i0 + 1) 1 0 rest).length := by
        rw [charge_loop_length]; exact hjlen
      rw [List.getD_eq_getElem _ _ hlen]
      exact (charge_loop_full hc hm T rest (i0 + 1) _ (List.getElem_mem hlen)).1
    | succ i =>
      rw [List.getD_cons_succ] at hsoc
      exact ih (i0 + 1) u hu0 hu1 hiT2 i j' (by omega) hjlen hsoc

/-- Pointwise domination of the recorded SoC-percent sequences when the
maximum power grows (and the starting SoC dominates). -/
theorem charge_loop_forall2 {c m1 m2 : ℚ} (hc : 0 < c) (hm : m1 ≤ m2) (T : ℕ) :
    ∀ (xs : List Sample) (i : ℕ) (s1 s2 : ℚ), s1 ≤ s2 → s2 ≤ 1 →
      i + xs.length ≤ T →
    List.Forall₂ (· ≤ ·)
      ((charge_loop c m1 T i s1 (c * (1 - s1)) xs).map Prod.snd)
      ((charge_loop c m2 T i s2 (c * (1 - s2)) xs).map Prod.snd) := by
  intro xs
  induction xs with
  | nil => intro i s1 s2 _ _ _; simp [charge_loop]
  | cons x rest ih =>
    intro i s1 s2 hs hs2 hiT
    have hiT' : i < T := by simp [List.length_cons] at hiT; omega
    have hiT2 : i + 1 + rest.length ≤ T := by
      simp [List.length_cons] at hiT; omega
    simp only [charge_loop, charge_step, List.map_cons]
    set u1 := charge_soc c s1 (charge_power m1 T i x (c * (1 - s1))) with hu1d
    set u2 := charge_soc c s2 (charge_power m2 T i x (c * (1 - s2))) with hu2d
    have hu : u1 ≤ u2 := charge_step_soc_mono T i x hc hm hiT' hs
    have hu21 : u2 ≤ 1 := charge_soc_le_one _ _ _
    have hu11 : u1 ≤ 1 := charge_soc_le_one _ _ _
    have hmax1 : max 0 (c * (1 - u1)) = c * (1 - u1) :=
      max_eq_right (mul_nonneg hc.le (by linarith))
    have hmax2 : max 0 (c * (1 - u2)) = c * (1 - u2) :=
      max_eq_right (mul_nonneg hc.le (by linarith))
    rw [hmax1, hmax2]
    exact List.Forall₂.cons (mul_le_mul_of_nonneg_right hu (by norm_num))
      (ih (i + 1) u1 u2 hu hu21 hiT2)

/-! ### Reduced forms of the engine output -/

theorem sim_powers_eq (data : List Sample) (c s0 m : ℚ) (sl : Option ℤ) :
    sim_powers data c s0 m sl =
    if time_steps_of data.length sl < data.length then
      loop_powers data c s0 m sl ++
        List.replicate (data.length - time_steps_of data.length sl) 0
    else loop_powers data c s0 m sl := rfl

theorem sim_socs_eq (data : List Sample) (c s0 m : ℚ) (sl : Option ℤ) :
    sim_socs data c s0 m sl =
    if time_steps_of data.length sl < data.length then
      loop_socs data c s0 m sl ++
        List.replicate (data.length - time_steps_of data.length sl)
          ((loop_socs data c s0 m sl).getLast?.getD (s0 * 100))
    else loop_socs data c s0 m sl := rfl

theorem sim_cidx_eq (data : List Sample) (c s0 m : ℚ) (sl : Option ℤ) :
    sim_cidx data c s0 m sl =
    (find_first full_threshold (sim_socs data c s0 m sl)).getD
      (data.length - 1) := rfl

theorem loop_powers_length (data : List Sample) (c s0 m : ℚ) (sl : Option ℤ) :
    (loop_powers data c s0 m sl).length =
      min (time_steps_of data.length sl) data.length := by
  simp [loop_powers, charge_loop_length]

theorem loop_socs_length (data : List Sample) (c s0 m : ℚ) (sl : Option ℤ) :
    (loop_socs data c s0 m sl).length =
      min (time_steps_of data.length sl) data.length := by
  simp [loop_socs, charge_loop_length]

theorem sim_powers_length (data : List Sample) (c s0 m : ℚ) (sl : Option ℤ) :
    (sim_powers data c s0 m sl).length = data.length := by
  rw [sim_powers_eq]
  split_ifs with h
  · simp [loop_powers_length]; omega
  · rw [loop_powers_length]; omega

theorem sim_socs_length (data : List Sample) (c s0 m : ℚ) (sl : Option ℤ) :
    (sim_socs data c s0 m sl).length = data.length := by
  rw [sim_socs_eq]
  split_ifs with h
  · simp [loop_socs_length]; omega
  · rw [loop_socs_length]; omega

theorem time_steps_of_pos {n : ℕ} (hn : 1 ≤ n) (sl : Option ℤ) :
    1 ≤ time_steps_of n sl := by
  cases sl with
  | none => simpa [time_steps_of] using hn
  | some s => simp only [time_steps_of]; omega

theorem time_steps_of_le {n : ℕ} (hn : 1 ≤ n) (sl : Option ℤ) :
    time_steps_of n sl ≤ n := by
  cases sl with
  | none => simp [time_steps_of]
  | some s => simp only [time_steps_of]; omega

theorem getD_map_pair (f : ℚ × ℚ → ℚ) (hf : f (0, 0) = 0) :
    ∀ (l : List (ℚ × ℚ)) (j : ℕ), (l.map f).getD j 0 = f (l.getD j (0, 0))
  | [], j => by
    rw [List.map_nil, List.getD_eq_default _ _ (Nat.zero_le j),
      List.getD_eq_default _ _ (Nat.zero_le j), hf]
  | x :: xs, 0 => by simp
  | x :: xs, j + 1 => by
    rw [List.map_cons, List.getD_cons_succ, List.getD_cons_succ]
    exact getD_map_pair f hf xs j

theorem mem_of_getLast_some {l : List ℚ} {a : ℚ} (h : l.getLast? = some a) :
    a ∈ l := by
  rcases List.mem_getLast?_eq_getLast (Option.mem_def.mpr h) with ⟨hne, ha⟩
  rw [ha]
  exact List.getLast_mem hne

/-! ### Claim theorems -/

/-- C9: for every non-empty series and any `step_limit` (including `none`,
zero or negative), the number of simulated steps is clamped to `[1, len]`,
so the divisor `time_steps - i` of the demand-cap computation is at least 1
(in particular non-zero) at every simulated step; the degenerate limit is
handled by the clamp, not by an error. -/
theorem step_limit_clamp_safe (data : List Sample) (sl : Option ℤ)
    (hne : data ≠ []) :
    1 ≤ time_steps_of data.length sl ∧
    time_steps_of data.length sl ≤ data.length ∧
    ∀ i, i < time_steps_of data.length sl →
      (1 : ℚ) ≤ (time_steps_of data.length sl : ℚ) - (i : ℚ) ∧
      ((time_steps_of data.length sl : ℚ) - (i : ℚ)) ≠ 0 := by
  have hn : 1 ≤ data.length := List.length_pos.mpr hne
  refine ⟨time_steps_of_pos hn sl, time_steps_of_le hn sl, fun i hi => ?_⟩
  have hcast : (i : ℚ) + 1 ≤ (time_steps_of data.length sl : ℚ) := by
    exact_mod_cast Nat.succ_le_of_lt hi
  constructor
  · linarith
  · intro hzero; linarith

/-- C3: within one engine run with positive capacity, `initial_soc ∈ [0,1]`
and a (per the data model, non-negative) maximum power, the recorded
`soc_percent` sequence is non-decreasing at every pair of adjacent indices,
including across the padded region. -/
theorem soc_monotone (data : List Sample) (c s0 m : ℚ) (sl : Option ℤ)
    (hc : 0 < c) (h0 : 0 ≤ s0) (h1 : s0 ≤ 1) (hm : 0 ≤ m) :
    ∀ i, i + 1 < (sim_socs data c s0 m sl).length →
      (sim_socs data c s0 m sl).getD i 0 ≤
      (sim_socs data c s0 m sl).getD (i + 1) 0 := by
  have hchainL : List.Chain' (· ≤ ·) (loop_socs data c s0 m sl) := by
    have h := charge_loop_chain hc hm (time_steps_of data.length sl)
      (data.take (time_steps_of data.length sl)) 0 s0 h1
      (by rw [List.length_take]; omega)
    exact (List.chain'_cons'.mp h).2
  have hchain : List.Chain' (· ≤ ·) (sim_socs data c s0 m sl) := by
    rw [sim_socs_eq]
    split_ifs with hTn
    · refine List.chain'_append.mpr ⟨hchainL, chain'_le_replicate _ _, ?_⟩
      intro a ha b hb
      rw [Option.mem_def] at ha
      have hva : (loop_socs data c s0 m sl).getLast?.getD (s0 * 100) = a := by
        rw [ha]; rfl
      have hb' : b = (loop_socs data c s0 m sl).getLast?.getD (s0 * 100) := by
        rcases hk : data.length - time_steps_of data.length sl with _ | k
        · rw [hk] at hb; simp at hb
        · rw [hk, List.replicate_succ] at hb
          simp only [List.head?_cons, Option.mem_def, Option.some.injEq] at hb
          exact hb.symm
      rw [hb', hva]
    · exact hchainL
  exact fun i hi => chain'_le_getD hchain i hi

/-- C5: with positive capacity, `initial_soc ∈ [0,1]` and positive maximum
power, every recorded charging power (simulated or padded) lies in
`[0, max_power]`. -/
theorem power_bounds (data : List Sample) (c s0 m : ℚ) (sl : Option ℤ)
    (hc : 0 < c) (h0 : 0 ≤ s0) (h1 : s0 ≤ 1) (hm : 0 < m) :
    ∀ i, i < (sim_powers data c s0 m sl).length →
      0 ≤ (sim_powers data c s0 m sl).getD i 0 ∧
      (sim_powers data c s0 m sl).getD i 0 ≤ m := by
  have hmem : ∀ x ∈ sim_powers data c s0 m sl, 0 ≤ x ∧ x ≤ m := by
    rw [sim_powers_eq]
    intro x hx
    have hloop : ∀ y ∈ loop_powers data c s0 m sl, 0 ≤ y ∧ y ≤ m := by
      intro y hy
      simp only [loop_powers] at hy
      rcases List.mem_map.mp hy with ⟨r, hr, rfl⟩
      have hb := charge_loop_mem hc hm.le _ _ 0 s0 h0 h1
        (by rw [List.length_take]; omega) r hr
      exact ⟨hb.1, hb.2.1⟩
    split_ifs at hx with hTn
    · rcases List.mem_append.mp hx with hx1 | hx2
      · exact hloop x hx1
      · rcases List.mem_replicate.mp hx2 with ⟨_, rfl⟩
        exact ⟨le_refl 0, hm.le⟩
    · exact hloop x hx
  intro i hi
  exact hmem _ (by rw [List.getD_eq_getElem _ _ hi]; exact List.getElem_mem hi)

/-- C6: at every simulated step whose sample has hour-of-day in `[18, 22]`
and solar production at most 5, the allocated charging power is at most 5,
regardless of the parameters. -/
theorem load_shedding (data : List Sample) (c s0 m : ℚ) (sl : Option ℤ)
    (i : ℕ) (hi : i < data.length) (hiT : i < time_steps_of data.length sl)
    (hsolar : (data.getD i sample0).solar_prod ≤ 5)
    (h18 : 18 ≤ (data.getD i sample0).hour)
    (h22 : (data.getD i sample0).hour ≤ 22) :
    (sim_powers data c s0 m sl).getD i 0 ≤ 5 := by
  have hiLL : i < (loop_powers data c s0 m sl).length := by
    rw [loop_powers_length]; exact lt_min hiT hi
  have hgoal : (loop_powers data c s0 m sl).getD i 0 ≤ 5 := by
    simp only [loop_powers]
    rw [getD_map_pair Prod.fst rfl]
    refine charge_loop_shed c m _ _ 0 s0 _ i ?_ ?_ ?_ ?_
    · rw [List.length_take]; exact lt_min hiT hi
    · rw [getD_take_eq sample0 data _ i hiT]; exact hsolar
    · rw [getD_take_eq sample0 data _ i hiT]; exact h18
    · rw [getD_take_eq sample0 data _ i hiT]; exact h22
  rw [sim_powers_eq]
  split_ifs with hTn
  · rw [List.getD_append _ _ _ _ hiLL]; exact hgoal
  · exact hgoal

theorem full_threshold_true {v : ℚ} (h : full_threshold v = true) :
    (999 : ℚ) / 10 ≤ v := of_decide_eq_true h

theorem full_threshold_false {v : ℚ} (h : full_threshold v = false) :
    v < 999 / 10 := not_le.mp (of_decide_eq_false h)

/-- C4: with valid parameters every recorded `soc_percent` lies in
`[0, 100]`, and once an index records 100 percent (battery full, SoC
clamped at 1), every later index records zero charging power, the demand
cap having collapsed to 0 with `energy_needed`. -/
theorem soc_capacity_bound (data : List Sample) (c s0 m : ℚ) (sl : Option ℤ)
    (hc : 0 < c) (h0 : 0 ≤ s0) (h1 : s0 ≤ 1) (hm : 0 ≤ m) :
    (∀ x ∈ sim_socs data c s0 m sl, 0 ≤ x ∧ x ≤ 100) ∧
    (∀ i j : ℕ, i < j → j < (sim_powers data c s0 m sl).length →
      (sim_socs data c s0 m sl).getD i 0 = 100 →
      (sim_powers data c s0 m sl).getD j 0 = 0) := by
  have hloopS : ∀ x ∈ loop_socs data c s0 m sl, 0 ≤ x ∧ x ≤ 100 := by
    intro x hx
    simp only [loop_socs] at hx
    rcases List.mem_map.mp hx with ⟨r, hr, rfl⟩
    have hb := charge_loop_mem hc hm _ _ 0 s0 h0 h1
      (by rw [List.length_take]; omega) r hr
    exact ⟨le_trans (mul_nonneg h0 (by norm_num)) hb.2.2.1, hb.2.2.2⟩
  constructor
  · have hval : 0 ≤ (loop_socs data c s0 m sl).getLast?.getD (s0 * 100) ∧
        (loop_socs data c s0 m sl).getLast?.getD (s0 * 100) ≤ 100 := by
      cases hL : (loop_socs data c s0 m sl).getLast? with
      | none =>
        simp only [Option.getD_none]
        exact ⟨mul_nonneg h0 (by norm_num), by linarith⟩
      | some a =>
        simp only [Option.getD_some]
        exact hloopS a (mem_of_getLast_some hL)
    rw [sim_socs_eq]
    split_ifs with hTn
    · intro x hx
      rcases List.mem_append.mp hx with hx1 | hx2
      · exact hloopS x hx1
      · rcases List.mem_replicate.mp hx2 with ⟨_, rfl⟩
        exact hval
    · exact hloopS
  · intro i j hij hjlen hsoc
    have hjn : j < data.length := by rwa [sim_powers_length] at hjlen
    by_cases hjL : j < min (time_steps_of data.length sl) data.length
    · have hiL : i < min (time_steps_of data.length sl) data.length :=
        lt_trans hij hjL
      have hsoc' : (loop_socs data c s0 m sl).getD i 0 = 100 := by
        rw [sim_socs_eq] at hsoc
        split_ifs at hsoc with hTn
        · rwa [List.getD_append _ _ _ _
            (by rw [loop_socs_length]; exact hiL)] at hsoc
        · exact hsoc
      have hsoc'' :
          ((charge_loop c m (time_steps_of data.length sl) 0 s0 (c * (1 - s0))
            (data.take (time_steps_of data.length sl))).getD i (0, 0)).2 = 100 := by
        simp only [loop_socs] at hsoc'
        rwa [getD_map_pair Prod.snd rfl] at hsoc'
      have key := charge_loop_full_after hc hm (time_steps_of data.length sl)
        (data.take (time_steps_of data.length sl)) 0 s0 h0 h1
        (by rw [List.length_take]; omega) i j hij
        (by rw [List.length_take]; exact hjL) hsoc''
      rw [sim_powers_eq]
      split_ifs with hTn
      · rw [List.getD_append _ _ _ _ (by rw [loop_powers_length]; exact hjL)]
        simp only [loop_powers]
        rw [getD_map_pair Prod.fst rfl]
        exact key
      · simp only [loop_powers]
        rw [getD_map_pair Prod.fst rfl]
        exact key
    · have hTn : time_steps_of data.length sl < data.length := by omega
      rw [sim_powers_eq, if_pos hTn]
      rw [List.getD_append_right _ _ _ _ (by rw [loop_powers_length]; omega)]
      exact getD_replicate_lt 0 0 (by rw [loop_powers_length]; omega)

/-- C7: the completion index is the first index of the full padded
`soc_percent` column at or above 99.9 and otherwise the last index
`len(data) - 1`, and the reported completion time is the timestamp of the
series at that index. -/
theorem completion_spec (data : List Sample) (c s0 m : ℚ) (sl : Option ℤ)
    (hne : data ≠ []) :
    sim_cidx data c s0 m sl < data.length ∧
    (∀ j, j < sim_cidx data c s0 m sl →
      (sim_socs data c s0 m sl).getD j 0 < 999 / 10) ∧
    ((999 : ℚ) / 10 ≤
        (sim_socs data c s0 m sl).getD (sim_cidx data c s0 m sl) 0 ∨
      (sim_cidx data c s0 m sl = data.length - 1 ∧
        ∀ j, j < (sim_socs data c s0 m sl).length →
          (sim_socs data c s0 m sl).getD j 0 < 999 / 10)) ∧
    simulate_completion_time data c s0 m sl =
      some ((data.getD (sim_cidx data c s0 m sl) sample0).time) := by
  have hn : 1 ≤ data.length := List.length_pos.mpr hne
  have hslen : (sim_socs data c s0 m sl).length = data.length :=
    sim_socs_length data c s0 m sl
  have htime : ∀ hlt : sim_cidx data c s0 m sl < data.length,
      simulate_completion_time data c s0 m sl =
      some ((data.getD (sim_cidx data c s0 m sl) sample0).time) := by
    intro hlt
    simp only [simulate_completion_time]
    rw [List.get?_eq_get hlt, List.getD_eq_get _ _ hlt]
    rfl
  cases hfind : find_first full_threshold (sim_socs data c s0 m sl) with
  | some i =>
    have hi : i < (sim_socs data c s0 m sl).length := find_first_lt_length hfind
    have hi' : i < data.length := by rwa [hslen] at hi
    have hidx : sim_cidx data c s0 m sl = i := by
      rw [sim_cidx_eq, hfind]; rfl
    rcases find_first_some (0 : ℚ) hfind with ⟨hp, hprev⟩
    refine ⟨by rw [hidx]; exact hi', ?_, ?_, htime (by rw [hidx]; exact hi')⟩
    · intro j hj
      rw [hidx] at hj
      exact full_threshold_false (hprev j hj)
    · left
      rw [hidx]
      exact full_threshold_true hp
  | none =>
    have hidx : sim_cidx data c s0 m sl = data.length - 1 := by
      rw [sim_cidx_eq, hfind]; rfl
    have hall := find_first_none (0 : ℚ) hfind
    refine ⟨by rw [hidx]; omega, ?_, ?_, htime (by rw [hidx]; omega)⟩
    · intro j hj
      rw [hidx] at hj
      exact full_threshold_false (hall j (by rw [hslen]; omega))
    · right
      exact ⟨hidx, fun j hj => full_threshold_false (hall j hj)⟩

/-- C8: when `step_limit` truncates the series, every index from the clamp
up to the end of the series records zero charging power and the
`soc_percent` of the last simulated step (index `clamp - 1`); for a
1440-step series with `step_limit = 10` these are exactly the indices
10 through 1439 holding the index-9 value. -/
theorem padding_spec (data : List Sample) (c s0 m : ℚ) (s : ℤ)
    (hpad : time_steps_of data.length (some s) < data.length) :
    ∀ j, time_steps_of data.length (some s) ≤ j → j < data.length →
      (sim_powers data c s0 m (some s)).getD j 0 = 0 ∧
      (sim_socs data c s0 m (some s)).getD j 0 =
        (sim_socs data c s0 m (some s)).getD
          (time_steps_of data.length (some s) - 1) 0 := by
  intro j hjT hjn
  have hT1 : 1 ≤ time_steps_of data.length (some s) :=
    time_steps_of_pos (by omega) (some s)
  have hLLp : (loop_powers data c s0 m (some s)).length =
      time_steps_of data.length (some s) := by
    rw [loop_powers_length]; omega
  have hLLs : (loop_socs data c s0 m (some s)).length =
      time_steps_of data.length (some s) := by
    rw [loop_socs_length]; omega
  constructor
  · rw [sim_powers_eq, if_pos hpad,
      List.getD_append_right _ _ _ _ (by rw [hLLp]; exact hjT)]
    exact getD_replicate_lt 0 0 (by rw [hLLp]; omega)
  · have hLne : loop_socs data c s0 m (some s) ≠ [] := by
      intro hnil
      rw [hnil] at hLLs
      simp at hLLs
      omega
    have hval := getLast_getD_eq_getD (loop_socs data c s0 m (some s))
      (s0 * 100) hLne
    rw [hLLs] at hval
    rw [sim_socs_eq, if_pos hpad,
      List.getD_append_right _ _ _ _ (by rw [hLLs]; exact hjT),
      List.getD_append _ _ _ _ (by rw [hLLs]; omega),
      getD_replicate_lt _ 0 (by rw [hLLs]; omega)]
    exact hval

/-- C2: with capacity and initial SoC fixed (valid per the data model) and
the same series and step limit, a larger maximum power never yields a later
completion index. -/
theorem completion_monotone (data : List Sample) (c s0 : ℚ) (sl : Option ℤ)
    (m1 m2 : ℚ) (hc : 0 < c) (h0 : 0 ≤ s0) (h1 : s0 ≤ 1) (hm : m1 ≤ m2) :
    sim_cidx data c s0 m2 sl ≤ sim_cidx data c s0 m1 sl := by
  have hF : List.Forall₂ (· ≤ ·) (sim_socs data c s0 m1 sl)
      (sim_socs data c s0 m2 sl) := by
    have hFL : List.Forall₂ (· ≤ ·) (loop_socs data c s0 m1 sl)
        (loop_socs data c s0 m2 sl) := by
      simp only [loop_socs]
      exact charge_loop_forall2 hc hm _ _ 0 s0 s0 le_rfl h1
        (by rw [List.length_take]; omega)
    rw [sim_socs_eq, sim_socs_eq]
    split_ifs with hTn
    · exact forall2_le_append hFL
        (forall2_le_replicate _ (forall2_le_getLast hFL le_rfl))
    · exact hFL
  rw [sim_cidx_eq, sim_cidx_eq]
  cases hfind1 : find_first full_threshold (sim_socs data c s0 m1 sl) with
  | some i =>
    rcases find_first_mono hF hfind1 with ⟨j, hj, hfind2⟩
    rw [hfind2]
    exact hj
  | none =>
    cases hfind2 : find_first full_threshold (sim_socs data c s0 m2 sl) with
    | none => exact le_refl _
    | some j =>
      have hjlen : j < (sim_socs data c s0 m2 sl).length :=
        find_first_lt_length hfind2
      rw [sim_socs_length] at hjlen
      show j ≤ data.length - 1
      omega

/-- C10: on a non-empty series, running the engine with `step_limit = None`
returns exactly the same output (power column, SoC column, completion
index) and the same completion time as running it with `step_limit` equal
to the series length. -/
theorem step_limit_none_eq (data : List Sample) (c s0 m : ℚ)
    (h : 1 ≤ data.length) :
    simulate_charging data c s0 m none =
      simulate_charging data c s0 m (some (data.length : ℤ)) ∧
    simulate_completion_time data c s0 m none =
      simulate_completion_time data c s0 m (some (data.length : ℤ)) := by
  have hT : time_steps_of data.length (some (data.length : ℤ)) =
      time_steps_of data.length none := by
    simp only [time_steps_of]
    omega
  have heq : simulate_charging data c s0 m none =
      simulate_charging data c s0 m (some (data.length : ℤ)) := by
    simp only [simulate_charging]
    rw [hT]
  exact ⟨heq, by simp only [simulate_completion_time, sim_cidx, heq]⟩

/-- The head of a generated series exposes only the grid curve at index 0
plus the noise draw at the current stream position. -/
theorem generate_getD_zero_grid (sin_lin bell noise : ℕ → ℚ) (off : ℕ) :
    ((generate_simulation_data sin_lin bell noise off).1.getD 0
      sample0).grid_load = 5 + 10 * sin_lin 0 + 1 * noise off := by
  have hlen : 0 < ((generate_simulation_data sin_lin bell noise off).1).length := by
    simp [generate_simulation_data]
  rw [List.getD_eq_getElem _ _ hlen]
  simp [generate_simulation_data]

/-- C1 (refuting call-level determinism of the generator): the generator
draws from the process-global RNG stream, which the first call advances by
2880 positions, so a second back-to-back call after the single module-level
seeding generically produces a different series; witnessed by a stream
whose draws 0 and 2880 differ, which changes `grid_load` at index 0. -/
theorem generator_not_call_deterministic :
    ¬ ∀ (sin_lin bell noise : ℕ → ℚ),
      (generate_simulation_data sin_lin bell noise 0).1 =
      (generate_simulation_data sin_lin bell noise
        ((generate_simulation_data sin_lin bell noise 0).2)).1 := by
  intro hcl
  have h := hcl (fun _ => 0) (fun _ => 0)
    (fun n => if n < 2880 then 0 else 1)
  have hoff : (generate_simulation_data (fun _ => 0) (fun _ => 0)
      (fun n => if n < 2880 then 0 else 1) 0).2 = 2880 := rfl
  rw [hoff] at h
  have h0 := congrArg (fun l => (l.getD 0 sample0).grid_load) h
  simp only [] at h0
  rw [generate_getD_zero_grid, generate_getD_zero_grid] at h0
  norm_num at h0

/-! ### Concrete witnesses -/

/-- A small concrete three-minute series: two off-peak samples and one
evening-peak sample with low solar. -/
def wdata : List Sample := [⟨0, 0, 6, 2⟩, ⟨1, 0, 7, 3⟩, ⟨2, 19, 8, 1⟩]

theorem completion_monotone_witness :
    (0 : ℚ) < 1 ∧ (0 : ℚ) ≤ 0 ∧ (0 : ℚ) ≤ 1 ∧ (1 : ℚ) ≤ 2 ∧
    sim_cidx wdata 1 0 2 none ≤ sim_cidx wdata 1 0 1 none :=
  ⟨by norm_num, le_refl 0, by norm_num, by norm_num,
   completion_monotone wdata 1 0 none 1 2 (by norm_num) (le_refl 0)
     (by norm_num) (by norm_num)⟩

theorem soc_monotone_witness :
    (0 : ℚ) < 1 ∧ (0 : ℚ) ≤ 0 ∧ (0 : ℚ) ≤ 1 ∧ (0 : ℚ) ≤ 2 ∧
    ∀ i, i + 1 < (sim_socs wdata 1 0 2 none).length →
      (sim_socs wdata 1 0 2 none).getD i 0 ≤
      (sim_socs wdata 1 0 2 none).getD (i + 1) 0 :=
  ⟨by norm_num, le_refl 0, by norm_num, by norm_num,
   soc_monotone wdata 1 0 2 none (by norm_num) (le_refl 0) (by norm_num)
     (by norm_num)⟩

theorem soc_capacity_bound_witness :
    (0 : ℚ) < 1 ∧ (0 : ℚ) ≤ 0 ∧ (0 : ℚ) ≤ 1 ∧ (0 : ℚ) ≤ 2 ∧
    ((∀ x ∈ sim_socs wdata 1 0 2 none, 0 ≤ x ∧ x ≤ 100) ∧
     (∀ i j : ℕ, i < j → j < (sim_powers wdata 1 0 2 none).length →
       (sim_socs wdata 1 0 2 none).getD i 0 = 100 →
       (sim_powers wdata 1 0 2 none).getD j 0 = 0)) :=
  ⟨by norm_num, le_refl 0, by norm_num, by norm_num,
   soc_capacity_bound wdata 1 0 2 none (by norm_num) (le_refl 0) (by norm_num)
     (by norm_num)⟩

theorem power_bounds_witness :
    (0 : ℚ) < 1 ∧ (0 : ℚ) ≤ 0 ∧ (0 : ℚ) ≤ 1 ∧ (0 : ℚ) < 2 ∧
    ∀ i, i < (sim_powers wdata 1 0 2 none).length →
      0 ≤ (sim_powers wdata 1 0 2 none).getD i 0 ∧
      (sim_powers wdata 1 0 2 none).getD i 0 ≤ 2 :=
  ⟨by norm_num, le_refl 0, by norm_num, by norm_num,
   power_bounds wdata 1 0 2 none (by norm_num) (le_refl 0) (by norm_num)
     (by norm_num)⟩

theorem load_shedding_witness :
    2 < wdata.length ∧ 2 < time_steps_of wdata.length none ∧
    (wdata.getD 2 sample0).solar_prod ≤ 5 ∧
    18 ≤ (wdata.getD 2 sample0).hour ∧ (wdata.getD 2 sample0).hour ≤ 22 ∧
    (sim_powers wdata 1 0 40 none).getD 2 0 ≤ 5 :=
  ⟨by decide, by decide, by decide, by decide, by decide,
   load_shedding wdata 1 0 40 none 2 (by decide) (by decide) (by decide)
     (by decide) (by decide)⟩

theorem completion_spec_witness :
    wdata ≠ [] ∧
    (sim_cidx wdata 1 0 2 none < wdata.length ∧
     (∀ j, j < sim_cidx wdata 1 0 2 none →
       (sim_socs wdata 1 0 2 none).getD j 0 < 999 / 10) ∧
     ((999 : ℚ) / 10 ≤
         (sim_socs wdata 1 0 2 none).getD (sim_cidx wdata 1 0 2 none) 0 ∨
       (sim_cidx wdata 1 0 2 none = wdata.length - 1 ∧
         ∀ j, j < (sim_socs wdata 1 0 2 none).length →
           (sim_socs wdata 1 0 2 none).getD j 0 < 999 / 10)) ∧
     simulate_completion_time wdata 1 0 2 none =
       some ((wdata.getD (sim_cidx wdata 1 0 2 none) sample0).time)) :=
  ⟨by decide, completion_spec wdata 1 0 2 none (by decide)⟩

theorem padding_spec_witness :
    time_steps_of wdata.length (some 1) < wdata.length ∧
    ∀ j, time_steps_of wdata.length (some 1) ≤ j → j < wdata.length →
      (sim_powers wdata 1 0 2 (some 1)).getD j 0 = 0 ∧
      (sim_socs wdata 1 0 2 (some 1)).getD j 0 =
        (sim_socs wdata 1 0 2 (some 1)).getD
          (time_steps_of wdata.length (some 1) - 1) 0 :=
  ⟨by decide, padding_spec wdata 1 0 2 1 (by decide)⟩

theorem step_limit_clamp_safe_witness :
    wdata ≠ [] ∧
    (1 ≤ time_steps_of wdata.length (some (-5)) ∧
     time_steps_of wdata.length (some (-5)) ≤ wdata.length ∧
     ∀ i, i < time_steps_of wdata.length (some (-5)) →
       (1 : ℚ) ≤ (time_steps_of wdata.length (some (-5)) : ℚ) - (i : ℚ) ∧
       ((time_steps_of wdata.length (some (-5)) : ℚ) - (i : ℚ)) ≠ 0) :=
  ⟨by decide, step_limit_clamp_safe wdata (some (-5)) (by decide)⟩

theorem step_limit_none_eq_witness :
    1 ≤ wdata.length ∧
    (simulate_charging wdata 1 0 2 none =
       simulate_charging wdata 1 0 2 (some (wdata.length : ℤ)) ∧
     simulate_completion_time wdata 1 0 2 none =
       simulate_completion_time wdata 1 0 2 (some (wdata.length : ℤ))) :=
  ⟨by decide, step_limit_none_eq wdata 1 0 2 (by decide)⟩
